import Mathlib

/-
Verification of the Marsupial Gurgle audio-file parsing tool
(src/parse_import.py) against its natural-language specification.

The embedding models:
 - pathlib stem/suffix computation on a filename (rfind of the last dot
   with the Python validity condition 0 < i < len - 1);
 - the scanner scan_clips: a fold over the sorted list of filesystem
   entries, building an insertion-ordered dictionary from clip key to
   clip record;
 - the tag reader parse_audio_tags, over an oracle describing what the
   external TinyTag library does on each file (returns a truthy tag
   object, returns a falsy value, or raises TinyTagException);
 - the writer create_database_entries, over a store oracle describing
   the outcome of each SQL statement; its observable behaviour is a
   trace of store events plus a flag telling whether the loop finished
   normally (an .error outcome of a statement models a raised exception
   that propagates out of the function);
 - the module-level program flow (configuration checks, early exits,
   then scan, then write).

Python dictionaries preserve insertion order, so a dictionary is
modelled as an association list with unique keys: insertion of a fresh
key appends, update of an existing key rewrites the pair in place.
-/

namespace ParseImport

/-- Tag metadata extracted from one audio file: the four fields read off
the TinyTag object. Each field may be missing, as TinyTag returns None
for absent fields. -/
structure TagMetadata where
  album : Option String
  artist : Option String
  title : Option String
  year : Option Int
deriving DecidableEq, Repr

/-- Outcome of the call TinyTag.get on one file: a truthy tag object,
a falsy value, or a raised TinyTagException. -/
inductive TinyTagResult where
  | ok (t : TagMetadata)
  | falsy
  | raises
deriving DecidableEq, Repr

/-- Embedding of parse_audio_tags (src/parse_import.py lines 37-52):
on a truthy TinyTag object it builds the four-field record, on a falsy
value it returns None, and a TinyTagException is caught and also turned
into None. -/
def parse_audio_tags : TinyTagResult → Option TagMetadata
  | .ok t => some t
  | .falsy => none
  | .raises => none

/-- One filesystem entry below the scanned root: the list of directory
components of its parent directory relative to the root, the final
filename component, and whether it is a regular file (the is_file test
of line 125). -/
structure FsEntry where
  parents : List String
  name : String
  isFile : Bool
deriving DecidableEq, Repr

/-- Position of the last dot of a character list: none when there is no
dot, otherwise the split (before, dot :: after) at the last dot. -/
def lastDotSplit : List Char → Option (List Char × List Char)
  | [] => none
  | c :: cs =>
    match lastDotSplit cs with
    | some (pre, suf) => some (c :: pre, suf)
    | none => if c = '.' then some ([], '.' :: cs) else none

/-- Embedding of pathlib PurePath.stem: the filename up to the last dot
when that dot is at an index i with 0 < i < len - 1, the whole filename
otherwise. -/
def stemOf (n : String) : String :=
  match lastDotSplit n.data with
  | some (pre, suf) => if pre ≠ [] ∧ 2 ≤ suf.length then String.mk pre else n
  | none => n

/-- Embedding of pathlib PurePath.suffix: the filename from the last dot
on when that dot is at an index i with 0 < i < len - 1, empty otherwise. -/
def suffixOf (n : String) : String :=
  match lastDotSplit n.data with
  | some (pre, suf) => if pre ≠ [] ∧ 2 ≤ suf.length then String.mk suf else ""
  | none => ""

/-- Join of path components with the / separator, mirroring str() of a
relative PurePosixPath. -/
def joinPath : List String → String
  | [] => ""
  | [s] => s
  | s :: t :: r => s ++ "/" ++ joinPath (t :: r)

/-- Embedding of str(parent) at line 132: the relative parent directory
prints as "." when the file sits directly under the root. -/
def parentStr (e : FsEntry) : String :=
  if e.parents = [] then "." else joinPath e.parents

/-- Embedding of the clip key of line 127, str(parent / stem): joining a
parent of "." with the stem yields just the stem. -/
def keyOf (e : FsEntry) : String :=
  joinPath (e.parents ++ [stemOf e.name])

/-- Full relative path components of an entry; Python sorts Path values
by this tuple, which drives sorted() at line 121. -/
def partsOf (e : FsEntry) : List String :=
  e.parents ++ [e.name]

/-- Clip record stored in the scanner dictionary (lines 130-138). The
tags field is Option (Option TagMetadata): the outer layer records
whether the dictionary key "tags" is present at all (the test of line
141), the inner layer is the possibly-None result of parse_audio_tags. -/
structure ClipRecord where
  key : String
  parent : String
  stem : String
  suffixes : List String
  tags : Option (Option TagMetadata)
deriving DecidableEq, Repr

/-- Lookup in the insertion-ordered dictionary. -/
def dictFind (m : List (String × ClipRecord)) (k : String) : Option ClipRecord :=
  (m.find? fun p => decide (p.1 = k)).map Prod.snd

/-- Rewrite of the record at an existing key, keeping its position. -/
def dictSet (m : List (String × ClipRecord)) (k : String) (r : ClipRecord) :
    List (String × ClipRecord) :=
  m.map fun p => if p.1 = k then (k, r) else p

/-- Keys of the dictionary in insertion order. -/
def dictKeys (m : List (String × ClipRecord)) : List String :=
  m.map Prod.fst

/-- Record created at lines 130-138 for the first file observed with a
given key. -/
def recordFor (oracle : FsEntry → TinyTagResult) (e : FsEntry) : ClipRecord :=
  { key := keyOf e
    parent := parentStr e
    stem := stemOf e.name
    suffixes := [suffixOf e.name]
    tags := some (parse_audio_tags (oracle e)) }

/-- Body of the loop of lines 129-142 for one regular file: a fresh key
appends a new record; an existing key appends the suffix and, when the
dictionary key "tags" is absent from the record, stores a fresh
extraction attempt. -/
def scanStep (oracle : FsEntry → TinyTagResult) (m : List (String × ClipRecord))
    (e : FsEntry) : List (String × ClipRecord) :=
  match dictFind m (keyOf e) with
  | none => m ++ [(keyOf e, recordFor oracle e)]
  | some r =>
    let r1 : ClipRecord := { r with suffixes := r.suffixes ++ [suffixOf e.name] }
    let r2 : ClipRecord :=
      if r1.tags = none then { r1 with tags := some (parse_audio_tags (oracle e)) } else r1
    dictSet m (keyOf e) r2

/-- Loop of lines 124-142 over the already-sorted entry list, skipping
entries that are not regular files. -/
def scanBody (oracle : FsEntry → TinyTagResult) :
    List (String × ClipRecord) → List FsEntry → List (String × ClipRecord)
  | m, [] => m
  | m, e :: es => scanBody oracle (if e.isFile then scanStep oracle m e else m) es

/-- Strict lexicographic order on character lists by code point, the
order Python uses on strings. -/
def charListLt : List Char → List Char → Bool
  | _, [] => false
  | [], _ :: _ => true
  | a :: as, b :: bs => if a = b then charListLt as bs else decide (a.toNat < b.toNat)

/-- Strict order on strings by code-point lexicographic comparison. -/
def strLt (s t : String) : Bool :=
  charListLt s.data t.data

/-- Boolean lexicographic order on lists of strings, the order Python
uses on the parts tuples of Path values. -/
def strListLe : List String → List String → Bool
  | [], _ => true
  | _ :: _, [] => false
  | a :: as, b :: bs => if a = b then strListLe as bs else strLt a b

/-- Order on filesystem entries used by sorted() at line 121: compare
the parts tuples. -/
def pathLE (a b : FsEntry) : Prop :=
  strListLe (partsOf a) (partsOf b) = true

instance : DecidableRel pathLE := fun _ _ =>
  inferInstanceAs (Decidable (_ = true))

/-- Embedding of sorted(clips_path.rglob("*")) at line 121: a sort of
the enumerated entries by the parts order. -/
def sortEntries (l : List FsEntry) : List FsEntry :=
  List.insertionSort pathLE l

/-- Embedding of scan_clips (lines 119-144): sort the enumeration of the
tree, then fold the per-file loop over it starting from the empty
dictionary. -/
def scan_clips (oracle : FsEntry → TinyTagResult) (entries : List FsEntry) :
    List (String × ClipRecord) :=
  scanBody oracle [] (sortEntries entries)

/-- Instrumented variant of the scan loop: alongside the dictionary it
carries the list of files on which parse_audio_tags was invoked, one
append per call site (line 137 and line 142). The control flow is the
one of scanStep and scanBody. -/
def scanStepT (oracle : FsEntry → TinyTagResult)
    (s : List (String × ClipRecord) × List FsEntry) (e : FsEntry) :
    List (String × ClipRecord) × List FsEntry :=
  match dictFind s.1 (keyOf e) with
  | none => (s.1 ++ [(keyOf e, recordFor oracle e)], s.2 ++ [e])
  | some r =>
    let r1 : ClipRecord := { r with suffixes := r.suffixes ++ [suffixOf e.name] }
    if r1.tags = none then
      (dictSet s.1 (keyOf e) { r1 with tags := some (parse_audio_tags (oracle e)) },
        s.2 ++ [e])
    else
      (dictSet s.1 (keyOf e) r1, s.2)

/-- Instrumented loop over the sorted entries. -/
def scanBodyT (oracle : FsEntry → TinyTagResult) :
    List (String × ClipRecord) × List FsEntry → List FsEntry →
      List (String × ClipRecord) × List FsEntry
  | s, [] => s
  | s, e :: es => scanBodyT oracle (if e.isFile then scanStepT oracle s e else s) es

/-- Instrumented scan_clips: same result dictionary, plus the list of
extraction attempts. -/
def scan_clipsT (oracle : FsEntry → TinyTagResult) (entries : List FsEntry) :
    List (String × ClipRecord) × List FsEntry :=
  scanBodyT oracle ([], []) (sortEntries entries)

/-- Row inserted into the clips table (lines 69-83). -/
structure ClipRow where
  key : String
  stem : String
  parent : String
  mp3 : Bool
  m4a : Bool
  m4r : Bool
deriving DecidableEq, Repr

/-- Row inserted into the tags table (lines 96-111). -/
structure TagRow where
  clip_id : Nat
  artist : Option String
  album : Option String
  title : Option String
  year : Option Int
deriving DecidableEq, Repr

/-- Observable store and console events of create_database_entries: the
connect call of line 62, the three SQL statements, the print of line
113, and the connection close of line 115. -/
inductive StoreEvent where
  | connect
  | insertClip (row : ClipRow)
  | selectId (key : String)
  | insertTag (row : TagRow)
  | notice (key : String)
  | closeConn
deriving DecidableEq, Repr

/-- Oracle for the store: outcome of each executed statement. An .error
outcome models a raised exception, which the source does not catch; an
.ok outcome of the SELECT carries the optional fetched row. -/
structure StoreOracle where
  insertClip : ClipRow → Except Unit Unit
  selectId : String → Except Unit (Option Nat)
  insertTag : TagRow → Except Unit Unit

/-- Clip row built for one record (lines 65-67 and 73-83): the three
format flags are membership tests of the three recognised extensions in
the suffixes list. -/
def clipRowOf (r : ClipRecord) : ClipRow :=
  { key := r.key
    stem := r.stem
    parent := r.parent
    mp3 := decide (".mp3" ∈ r.suffixes)
    m4a := decide (".m4a" ∈ r.suffixes)
    m4r := decide (".m4r" ∈ r.suffixes) }

/-- Tag row built for one record (lines 101-110). -/
def tagRowOf (id : Nat) (t : TagMetadata) : TagRow :=
  { clip_id := id
    artist := t.artist
    album := t.album
    title := t.title
    year := t.year }

/-- Per-clip write loop of lines 63-113. The returned Bool is true when
the loop ran to completion; false means a statement raised, the trace
stops at the raising statement, and the exception propagates (so the
close of line 115 is never reached). A SELECT that fetches no row
skips the tag insert silently (line 93 has no else branch); a record
whose tags entry is absent or None takes the print branch of line 113. -/
def writeLoop (st : StoreOracle) : List (String × ClipRecord) → List StoreEvent × Bool
  | [] => ([], true)
  | (_, r) :: rest =>
    let row := clipRowOf r
    match st.insertClip row with
    | .error _ => ([.insertClip row], false)
    | .ok _ =>
      match r.tags with
      | some (some t) =>
        match st.selectId r.key with
        | .error _ => ([.insertClip row, .selectId r.key], false)
        | .ok none =>
          let rec_rest := writeLoop st rest
          (.insertClip row :: .selectId r.key :: rec_rest.1, rec_rest.2)
        | .ok (some id) =>
          let trow := tagRowOf id t
          match st.insertTag trow with
          | .error _ => ([.insertClip row, .selectId r.key, .insertTag trow], false)
          | .ok _ =>
            let rec_rest := writeLoop st rest
            (.insertClip row :: .selectId r.key :: .insertTag trow :: rec_rest.1,
              rec_rest.2)
      | _ =>
        let rec_rest := writeLoop st rest
        (.insertClip row :: .notice r.key :: rec_rest.1, rec_rest.2)

/-- Embedding of create_database_entries (lines 55-116): an empty
settings dictionary returns at once (lines 59-60) with no events;
otherwise the connection is opened, the loop runs, and the connection
is closed only when the loop finished without a raised exception. -/
def create_database_entries (st : StoreOracle) (database_settings : List (String × String))
    (clips_info : List (String × ClipRecord)) : List StoreEvent × Bool :=
  if database_settings = [] then ([], true)
  else
    let res := writeLoop st clips_info
    if res.2 then (.connect :: res.1 ++ [.closeConn], true) else (.connect :: res.1, false)

/-- Result of one program run: the clip mapping when scan_clips was
actually executed, the store events, and whether the write loop
finished normally. -/
structure ProgramResult where
  scanned : Option (List (String × ClipRecord))
  events : List StoreEvent
  ok : Bool
deriving DecidableEq, Repr

/-- Lookup in a plain string-to-string settings dictionary. -/
def lookupStr (d : List (String × String)) (k : String) : Option String :=
  (d.find? fun p => decide (p.1 = k)).map Prod.snd

/-- Embedding of the module-level flow (lines 147-165): exit when the
clips_directory setting is missing or empty, exit when the database
settings dictionary is empty, then scan, then write only when the
mapping is non-empty. Both sys.exit() calls are clean exits, modelled
as a result with no scan performed and no events. -/
def mainProgram (oracle : FsEntry → TinyTagResult) (st : StoreOracle)
    (app_settings database_settings : List (String × String))
    (entries : List FsEntry) : ProgramResult :=
  match lookupStr app_settings "clips_directory" with
  | none => ⟨none, [], true⟩
  | some d =>
    if d = "" then ⟨none, [], true⟩
    else if database_settings = [] then ⟨none, [], true⟩
    else
      let m := scan_clips oracle entries
      if m = [] then ⟨some m, [], true⟩
      else
        let res := create_database_entries st database_settings m
        ⟨some m, res.1, res.2⟩

/-- Wellformedness of a filesystem entry as delivered by a real
directory walk: no path component and no filename contains the path
separator. -/
def wfEntry (e : FsEntry) : Prop :=
  (∀ c ∈ e.parents, '/' ∉ c.data) ∧ '/' ∉ e.name.data

instance (e : FsEntry) : Decidable (wfEntry e) :=
  inferInstanceAs (Decidable (_ ∧ _))

/-- Pair of relative directory and base filename of an entry; the spec
phrases the grouping of files into clips in terms of these pairs. -/
def pairOf (e : FsEntry) : List String × String :=
  (e.parents, stemOf e.name)

/-- Test selecting the regular files whose clip key is k. -/
def isFileWithKey (k : String) (e : FsEntry) : Bool :=
  e.isFile && decide (keyOf e = k)

/-- Key string built from a pair of parent components and stem; keyOf
factors through pairOf via this map. -/
def keyPair (p : List String × String) : String :=
  joinPath (p.1 ++ [p.2])

/-- Invariant of the scan loop relating the dictionary to the list of
entries already processed: keys are unique; every regular file seen so
far is represented; and each record carries its own key, the suffixes of
all its files seen so far in order, and parent, stem and tags taken from
the first seen file of its key. -/
def GoodState (oracle : FsEntry → TinyTagResult) (seen : List FsEntry)
    (m : List (String × ClipRecord)) : Prop :=
  (dictKeys m).Nodup ∧
  (∀ k, (∃ e ∈ seen, isFileWithKey k e = true) → k ∈ dictKeys m) ∧
  (∀ p ∈ m, p.2.key = p.1 ∧
    p.2.suffixes = (seen.filter (isFileWithKey p.1)).map (fun e => suffixOf e.name) ∧
    ∃ e, seen.find? (isFileWithKey p.1) = some e ∧
      p.2.parent = parentStr e ∧ p.2.stem = stemOf e.name ∧
      p.2.tags = some (parse_audio_tags (oracle e)))

/-- Concrete fixture: the mp3 variant of the clip songs/track. -/
def fileMp3 : FsEntry :=
  { parents := ["songs"], name := "track.mp3", isFile := true }

/-- Concrete fixture: the m4a variant of the clip songs/track; it sorts
before the mp3 variant. -/
def fileM4a : FsEntry :=
  { parents := ["songs"], name := "track.m4a", isFile := true }

/-- Concrete fixture: a tag record. -/
def tagsA : TagMetadata :=
  { album := some "B", artist := some "A", title := some "T", year := some 2001 }

/-- Concrete fixture oracle: extraction raises on the m4a variant and
succeeds on every other file. -/
def oracleA : FsEntry → TinyTagResult := fun e =>
  if e.name = "track.m4a" then .raises else .ok tagsA

/-- Concrete fixture oracle: extraction raises on every file. -/
def oracleFail : FsEntry → TinyTagResult := fun _ => .raises

/-- Concrete fixture store: every statement succeeds, the SELECT fetches
id 7. -/
def storeOk : StoreOracle :=
  { insertClip := fun _ => .ok ()
    selectId := fun _ => .ok (some 7)
    insertTag := fun _ => .ok () }

/-- Concrete fixture store: every clip INSERT raises. -/
def storeInsertFails : StoreOracle :=
  { insertClip := fun _ => .error ()
    selectId := fun _ => .ok (some 7)
    insertTag := fun _ => .ok () }

/-- Concrete fixture store: statements succeed but the SELECT fetches no
row. -/
def storeNoRow : StoreOracle :=
  { insertClip := fun _ => .ok ()
    selectId := fun _ => .ok none
    insertTag := fun _ => .ok () }

/-- Concrete fixture: the record the scanner builds for the clip
songs/track from the two variant files under oracleA. -/
def recScanned : ClipRecord :=
  { key := "songs/track"
    parent := "songs"
    stem := "track"
    suffixes := [".m4a", ".mp3"]
    tags := some none }

/-- Concrete fixture record with mp3 and wav variants and tags. -/
def recMp3Wav : ClipRecord :=
  { key := "songs/track"
    parent := "songs"
    stem := "track"
    suffixes := [".mp3", ".wav"]
    tags := some (some tagsA) }

/-! Helper lemmas about strings, stems, suffixes and joined paths. -/

theorem string_data_inj : ∀ {s t : String}, s.data = t.data → s = t := by
  intro s t h
  exact congrArg String.mk h

theorem string_data_append (s t : String) : (s ++ t).data = s.data ++ t.data := by
  cases s
  cases t
  rfl

theorem lastDotSplit_eq_append : ∀ {cs pre suf : List Char},
    lastDotSplit cs = some (pre, suf) → cs = pre ++ suf := by
  intro cs
  induction cs with
  | nil => intro pre suf h; simp [lastDotSplit] at h
  | cons c cs ih =>
    intro pre suf h
    rw [lastDotSplit] at h
    rcases hcs : lastDotSplit cs with _ | ⟨p, s⟩
    · rw [hcs] at h
      by_cases hc : c = '.'
      · simp [hc] at h
        obtain ⟨hpre, hsuf⟩ := h
        subst hpre
        subst hsuf
        simp [hc]
      · simp [hc] at h
    · rw [hcs] at h
      simp at h
      obtain ⟨hpre, hsuf⟩ := h
      subst hpre
      subst hsuf
      simpa using ih hcs

theorem stem_suffix_data (n : String) :
    n.data = (stemOf n).data ++ (suffixOf n).data := by
  rcases h : lastDotSplit n.data with _ | ⟨pre, suf⟩
  · simp [stemOf, suffixOf, h]
  · by_cases hc : pre ≠ [] ∧ 2 ≤ suf.length
    · simp only [stemOf, suffixOf, h]
      rw [if_pos hc, if_pos hc]
      exact lastDotSplit_eq_append h
    · simp only [stemOf, suffixOf, h]
      rw [if_neg hc, if_neg hc]
      simp

theorem stem_suffix_inj {n₁ n₂ : String} (hs : stemOf n₁ = stemOf n₂)
    (hx : suffixOf n₁ = suffixOf n₂) : n₁ = n₂ :=
  string_data_inj (by rw [stem_suffix_data n₁, stem_suffix_data n₂, hs, hx])

theorem slashFree_stem {n : String} (h : '/' ∉ n.data) : '/' ∉ (stemOf n).data := by
  intro hmem
  exact h (by rw [stem_suffix_data n]; exact List.mem_append_left _ hmem)

theorem joinPath_data_cons (s t : String) (r : List String) :
    (joinPath (s :: t :: r)).data = s.data ++ '/' :: (joinPath (t :: r)).data := by
  show (s ++ "/" ++ joinPath (t :: r)).data = _
  rw [string_data_append, string_data_append]
  simp

theorem append_slash_inj : ∀ {a : List Char} {b u v : List Char}, '/' ∉ a → '/' ∉ b →
    a ++ '/' :: u = b ++ '/' :: v → a = b ∧ u = v := by
  intro a
  induction a with
  | nil =>
    intro b u v _ hb h
    cases b with
    | nil => simpa using h
    | cons d b =>
      simp only [List.nil_append, List.cons_append, List.cons.injEq] at h
      exact absurd (h.1 ▸ List.mem_cons_self d b) hb
  | cons c a ih =>
    intro b u v ha hb h
    cases b with
    | nil =>
      simp only [List.nil_append, List.cons_append, List.cons.injEq] at h
      exact absurd (h.1 ▸ List.mem_cons_self c a) ha
    | cons d b =>
      simp only [List.cons_append, List.cons.injEq] at h
      obtain ⟨hcd, htail⟩ := h
      have ha2 : '/' ∉ a := fun hm => ha (List.mem_cons_of_mem _ hm)
      have hb2 : '/' ∉ b := fun hm => hb (List.mem_cons_of_mem _ hm)
      obtain ⟨he, hu⟩ := ih ha2 hb2 htail
      exact ⟨by rw [hcd, he], hu⟩

theorem joinPath_inj : ∀ {l₁ l₂ : List String}, l₁ ≠ [] → l₂ ≠ [] →
    (∀ s ∈ l₁, '/' ∉ s.data) → (∀ s ∈ l₂, '/' ∉ s.data) →
    joinPath l₁ = joinPath l₂ → l₁ = l₂ := by
  intro l₁
  induction l₁ with
  | nil => intro l₂ h₁; exact absurd rfl h₁
  | cons a l₁ ih =>
    intro l₂ _ hn₂ hf₁ hf₂ h
    cases l₂ with
    | nil => exact absurd rfl hn₂
    | cons b l₂ =>
      cases l₁ with
      | nil =>
        cases l₂ with
        | nil =>
          simp only [joinPath] at h
          rw [h]
        | cons b2 l₂ =>
          have hd := congrArg String.data h
          rw [joinPath_data_cons] at hd
          have : '/' ∈ (joinPath [a]).data := by
            rw [hd]; exact List.mem_append_right _ (List.mem_cons_self _ _)
          exact absurd this (hf₁ a (List.mem_cons_self _ _))
      | cons a2 l₁ =>
        cases l₂ with
        | nil =>
          have hd := congrArg String.data h
          rw [joinPath_data_cons] at hd
          have : '/' ∈ (joinPath [b]).data := by
            rw [← hd]; exact List.mem_append_right _ (List.mem_cons_self _ _)
          exact absurd this (hf₂ b (List.mem_cons_self _ _))
        | cons b2 l₂ =>
          have hd := congrArg String.data h
          rw [joinPath_data_cons, joinPath_data_cons] at hd
          obtain ⟨hab, hrest⟩ :=
            append_slash_inj (hf₁ a (List.mem_cons_self _ _))
              (hf₂ b (List.mem_cons_self _ _)) hd
          have htail : joinPath (a2 :: l₁) = joinPath (b2 :: l₂) :=
            string_data_inj hrest
          have := ih (by simp) (by simp)
            (fun s hs => hf₁ s (List.mem_cons_of_mem _ hs))
            (fun s hs => hf₂ s (List.mem_cons_of_mem _ hs)) htail
          rw [string_data_inj hab, this]

theorem keyOf_eq_iff {e₁ e₂ : FsEntry} (h₁ : wfEntry e₁) (h₂ : wfEntry e₂) :
    keyOf e₁ = keyOf e₂ ↔ pairOf e₁ = pairOf e₂ := by
  constructor
  · intro h
    have hf₁ : ∀ s ∈ e₁.parents ++ [stemOf e₁.name], '/' ∉ s.data := by
      intro s hs
      rcases List.mem_append.1 hs with hs | hs
      · exact h₁.1 s hs
      · rw [List.mem_singleton.1 hs]
        exact slashFree_stem h₁.2
    have hf₂ : ∀ s ∈ e₂.parents ++ [stemOf e₂.name], '/' ∉ s.data := by
      intro s hs
      rcases List.mem_append.1 hs with hs | hs
      · exact h₂.1 s hs
      · rw [List.mem_singleton.1 hs]
        exact slashFree_stem h₂.2
    have hl := joinPath_inj (by simp) (by simp) hf₁ hf₂ h
    have hlen : [stemOf e₁.name].length = [stemOf e₂.name].length := by simp
    obtain ⟨hp, hs⟩ := List.append_inj' hl hlen
    have hstem : stemOf e₁.name = stemOf e₂.name := by simpa using hs
    simp only [pairOf, Prod.mk.injEq]
    exact ⟨hp, hstem⟩
  · intro h
    simp only [pairOf, Prod.mk.injEq] at h
    rw [keyOf, keyOf, h.1, h.2]

/-! Helper lemmas about the dictionary model. -/

theorem find?_append_some {α : Type} {p : α → Bool} {l₁ l₂ : List α} {a : α}
    (h : l₁.find? p = some a) : (l₁ ++ l₂).find? p = some a := by
  rw [List.find?_append, h]
  rfl

theorem find?_append_none {α : Type} {p : α → Bool} {l₁ l₂ : List α}
    (h : l₁.find? p = none) : (l₁ ++ l₂).find? p = l₂.find? p := by
  rw [List.find?_append, h]
  rfl

theorem mem_keys_of_mem {m : List (String × ClipRecord)} {p : String × ClipRecord}
    (h : p ∈ m) : p.1 ∈ dictKeys m :=
  List.mem_map_of_mem _ h

theorem dictFind_eq_none_iff {m : List (String × ClipRecord)} {k : String} :
    dictFind m k = none ↔ k ∉ dictKeys m := by
  rw [dictFind, Option.map_eq_none', List.find?_eq_none]
  constructor
  · intro h hk
    simp only [dictKeys, List.mem_map] at hk
    obtain ⟨p, hp, hpk⟩ := hk
    exact h p hp (by simpa using hpk)
  · intro h p hp hpk
    have hk : p.1 = k := by simpa using hpk
    exact h (hk ▸ mem_keys_of_mem hp)

theorem dictFind_mem {m : List (String × ClipRecord)} {k : String} {r : ClipRecord}
    (h : dictFind m k = some r) : (k, r) ∈ m := by
  simp only [dictFind, Option.map_eq_some'] at h
  obtain ⟨p, hp, hpr⟩ := h
  have hmem := List.mem_of_find?_eq_some hp
  have hkey : p.1 = k := by simpa using List.find?_some hp
  have : p = (k, r) := by
    rw [← hkey, ← hpr]
  rw [← this]
  exact hmem

theorem dictKeys_dictSet (m : List (String × ClipRecord)) (k : String) (r : ClipRecord) :
    dictKeys (dictSet m k r) = dictKeys m := by
  induction m with
  | nil => rfl
  | cons p m ih =>
    simp only [dictSet, dictKeys, List.map_cons] at ih ⊢
    by_cases hp : p.1 = k
    · simp [hp, ih]
    · simp [hp, ih]

theorem mem_dictSet_iff {m : List (String × ClipRecord)} {k : String} {r : ClipRecord}
    {p : String × ClipRecord} :
    p ∈ dictSet m k r ↔ (k ∈ dictKeys m ∧ p = (k, r)) ∨ (p ∈ m ∧ p.1 ≠ k) := by
  constructor
  · intro h
    simp only [dictSet, List.mem_map] at h
    obtain ⟨q, hq, hqp⟩ := h
    by_cases hqk : q.1 = k
    · left
      rw [if_pos hqk] at hqp
      exact ⟨hqk ▸ mem_keys_of_mem hq, hqp.symm⟩
    · right
      rw [if_neg hqk] at hqp
      exact ⟨hqp ▸ hq, hqp ▸ hqk⟩
  · intro h
    rcases h with ⟨hk, hp⟩ | ⟨hp, hne⟩
    · simp only [dictKeys, List.mem_map] at hk
      obtain ⟨q, hq, hqk⟩ := hk
      exact List.mem_map.2 ⟨q, hq, by rw [if_pos hqk, hp]⟩
    · exact List.mem_map.2 ⟨p, hp, by rw [if_neg hne]⟩

/-! Lemmas about the scan step and the scan invariant. -/

theorem isFileWithKey_true_iff {e : FsEntry} {k : String} :
    isFileWithKey k e = true ↔ e.isFile = true ∧ keyOf e = k := by
  simp [isFileWithKey]

theorem isFileWithKey_self {e : FsEntry} (hf : e.isFile = true) :
    isFileWithKey (keyOf e) e = true := by
  simp [isFileWithKey, hf]

theorem isFileWithKey_ne {e : FsEntry} {k : String} (h : ¬keyOf e = k) :
    isFileWithKey k e = false := by
  simp [isFileWithKey, h]

theorem isFileWithKey_not_file {e : FsEntry} {k : String} (h : e.isFile = false) :
    isFileWithKey k e = false := by
  simp [isFileWithKey, h]

theorem filter_append_single_false {l : List FsEntry} {e : FsEntry} {k : String}
    (h : isFileWithKey k e = false) :
    (l ++ [e]).filter (isFileWithKey k) = l.filter (isFileWithKey k) := by
  rw [List.filter_append]
  simp [h]

theorem filter_append_single_true {l : List FsEntry} {e : FsEntry} {k : String}
    (h : isFileWithKey k e = true) :
    (l ++ [e]).filter (isFileWithKey k) = l.filter (isFileWithKey k) ++ [e] := by
  rw [List.filter_append]
  simp [h]

theorem scanStep_none {oracle : FsEntry → TinyTagResult} {m : List (String × ClipRecord)}
    {e : FsEntry} (hd : dictFind m (keyOf e) = none) :
    scanStep oracle m e = m ++ [(keyOf e, recordFor oracle e)] := by
  simp only [scanStep, hd]

theorem scanStep_some {oracle : FsEntry → TinyTagResult} {m : List (String × ClipRecord)}
    {e : FsEntry} {r : ClipRecord} (hd : dictFind m (keyOf e) = some r)
    (ht : r.tags ≠ none) :
    scanStep oracle m e =
      dictSet m (keyOf e) { r with suffixes := r.suffixes ++ [suffixOf e.name] } := by
  simp only [scanStep, hd]
  rw [if_neg]
  simpa using ht

theorem goodState_step (oracle : FsEntry → TinyTagResult) {seen : List FsEntry}
    {m : List (String × ClipRecord)} (e : FsEntry) (hg : GoodState oracle seen m) :
    GoodState oracle (seen ++ [e]) (if e.isFile then scanStep oracle m e else m) := by
  obtain ⟨hnd, hcomp, hrec⟩ := hg
  by_cases hf : e.isFile = true
  · rw [if_pos hf]
    rcases hd : dictFind m (keyOf e) with _ | r
    · -- fresh key: a new record is appended
      have hknew : keyOf e ∉ dictKeys m := dictFind_eq_none_iff.1 hd
      have hseenNone : ∀ x ∈ seen, ¬isFileWithKey (keyOf e) x = true := by
        intro x hx hpx
        exact hknew (hcomp (keyOf e) ⟨x, hx, hpx⟩)
      have hfilterNil : seen.filter (isFileWithKey (keyOf e)) = [] :=
        List.filter_eq_nil_iff.2 hseenNone
      have hfindNone : seen.find? (isFileWithKey (keyOf e)) = none :=
        List.find?_eq_none.2 hseenNone
      rw [scanStep_none hd]
      refine ⟨?_, ?_, ?_⟩
      · rw [dictKeys, List.map_append]
        simp only [List.map_cons, List.map_nil]
        rw [List.nodup_append]
        refine ⟨hnd, List.nodup_singleton _, ?_⟩
        intro a ha hb
        rw [List.mem_singleton.1 hb] at ha
        exact hknew ha
      · intro k hk
        obtain ⟨x, hx, hpx⟩ := hk
        rw [dictKeys, List.map_append]
        rcases List.mem_append.1 hx with hx | hx
        · exact List.mem_append_left _ (hcomp k ⟨x, hx, hpx⟩)
        · rw [List.mem_singleton.1 hx] at hpx
          obtain ⟨_, hke⟩ := isFileWithKey_true_iff.1 hpx
          apply List.mem_append_right
          simp [← hke]
      · intro p hp
        rcases List.mem_append.1 hp with hp | hp
        · obtain ⟨hkey, hsuf, e₀, hfind, hpar, hstem, htags⟩ := hrec p hp
          have hpne : ¬keyOf e = p.1 := by
            intro hh
            exact hknew (hh ▸ mem_keys_of_mem hp)
          refine ⟨hkey, ?_, e₀, find?_append_some hfind, hpar, hstem, htags⟩
          rw [filter_append_single_false (isFileWithKey_ne hpne), hsuf]
        · rw [List.mem_singleton.1 hp]
          refine ⟨rfl, ?_, e, ?_, rfl, rfl, rfl⟩
          · rw [filter_append_single_true (isFileWithKey_self hf), hfilterNil]
            rfl
          · rw [find?_append_none hfindNone]
            exact List.find?_cons_of_pos _ (isFileWithKey_self hf)
    · -- existing key: the suffix is appended, the tags branch is dead
      have hmem : (keyOf e, r) ∈ m := dictFind_mem hd
      obtain ⟨hkey, hsuf, e₀, hfind, hpar, hstem, htags⟩ := hrec _ hmem
      have htne : r.tags ≠ none := by
        rw [htags]
        exact Option.some_ne_none _
      rw [scanStep_some hd htne]
      refine ⟨?_, ?_, ?_⟩
      · rw [dictKeys_dictSet]
        exact hnd
      · intro k hk
        obtain ⟨x, hx, hpx⟩ := hk
        rw [dictKeys_dictSet]
        rcases List.mem_append.1 hx with hx | hx
        · exact hcomp k ⟨x, hx, hpx⟩
        · rw [List.mem_singleton.1 hx] at hpx
          obtain ⟨_, hke⟩ := isFileWithKey_true_iff.1 hpx
          exact hke ▸ mem_keys_of_mem hmem
      · intro p hp
        rcases mem_dictSet_iff.1 hp with ⟨_, hpeq⟩ | ⟨hp, hne⟩
        · rw [hpeq]
          refine ⟨hkey, ?_, e₀, find?_append_some hfind, hpar, hstem, htags⟩
          rw [filter_append_single_true (isFileWithKey_self hf), List.map_append, ← hsuf]
          rfl
        · obtain ⟨hkey2, hsuf2, e₂, hfind2, hpar2, hstem2, htags2⟩ := hrec p hp
          refine ⟨hkey2, ?_, e₂, find?_append_some hfind2, hpar2, hstem2, htags2⟩
          rw [filter_append_single_false (isFileWithKey_ne fun hh => hne hh.symm), hsuf2]
  · have hf0 : e.isFile = false := by simpa using hf
    rw [if_neg hf]
    refine ⟨hnd, ?_, ?_⟩
    · intro k hk
      obtain ⟨x, hx, hpx⟩ := hk
      rcases List.mem_append.1 hx with hx | hx
      · exact hcomp k ⟨x, hx, hpx⟩
      · rw [List.mem_singleton.1 hx] at hpx
        rw [isFileWithKey_not_file hf0] at hpx
        exact absurd hpx (by simp)
    · intro p hp
      obtain ⟨hkey, hsuf, e₀, hfind, hpar, hstem, htags⟩ := hrec p hp
      refine ⟨hkey, ?_, e₀, find?_append_some hfind, hpar, hstem, htags⟩
      rw [filter_append_single_false (isFileWithKey_not_file hf0), hsuf]

theorem goodState_scanBody (oracle : FsEntry → TinyTagResult) :
    ∀ (l : List FsEntry) {seen : List FsEntry} {m : List (String × ClipRecord)},
      GoodState oracle seen m → GoodState oracle (seen ++ l) (scanBody oracle m l) := by
  intro l
  induction l with
  | nil =>
    intro seen m hg
    simpa [scanBody] using hg
  | cons e l ih =>
    intro seen m hg
    rw [scanBody]
    have h2 := ih (goodState_step oracle e hg)
    rwa [List.append_assoc, List.singleton_append] at h2

theorem goodState_nil (oracle : FsEntry → TinyTagResult) : GoodState oracle [] [] := by
  refine ⟨List.nodup_nil, ?_, ?_⟩
  · intro k hk
    obtain ⟨x, hx, _⟩ := hk
    exact absurd hx (List.not_mem_nil x)
  · intro p hp
    exact absurd hp (List.not_mem_nil p)

theorem goodState_scan_clips (oracle : FsEntry → TinyTagResult) (entries : List FsEntry) :
    GoodState oracle (sortEntries entries) (scan_clips oracle entries) := by
  have := goodState_scanBody oracle (sortEntries entries) (goodState_nil oracle)
  simpa [scan_clips] using this

/-! Lemmas about the comparison functions and the sort. -/

theorem char_toNat_inj {c d : Char} (h : c.toNat = d.toNat) : c = d :=
  Char.eq_of_val_eq (UInt32.eq_of_toBitVec_eq (BitVec.eq_of_toNat_eq h))

theorem charListLt_irrefl : ∀ x : List Char, charListLt x x = false := by
  intro x
  induction x with
  | nil => rfl
  | cons c cs ih => simp [charListLt, ih]

theorem charListLt_trans : ∀ x y z : List Char,
    charListLt x y = true → charListLt y z = true → charListLt x z = true := by
  intro x
  induction x with
  | nil =>
    intro y z h₁ h₂
    cases y with
    | nil => simp [charListLt] at h₁
    | cons b bs =>
      cases z with
      | nil => simp [charListLt] at h₂
      | cons c cs => rfl
  | cons a as ih =>
    intro y z h₁ h₂
    cases y with
    | nil => simp [charListLt] at h₁
    | cons b bs =>
      cases z with
      | nil => simp [charListLt] at h₂
      | cons c cs =>
        rw [charListLt] at h₁ h₂ ⊢
        by_cases hab : a = b
        · rw [if_pos hab] at h₁
          by_cases hbc : b = c
          · rw [if_pos hbc] at h₂
            rw [if_pos (hab.trans hbc)]
            exact ih bs cs h₁ h₂
          · rw [if_neg hbc] at h₂
            have hac : ¬a = c := fun h => hbc (hab ▸ h)
            rw [if_neg hac, hab]
            exact h₂
        · rw [if_neg hab] at h₁
          have h₁n : a.toNat < b.toNat := of_decide_eq_true h₁
          by_cases hbc : b = c
          · have hac : ¬a = c := fun h => hab (h.trans hbc.symm)
            rw [if_neg hac]
            rw [← hbc]
            exact h₁
          · rw [if_neg hbc] at h₂
            have h₂n : b.toNat < c.toNat := of_decide_eq_true h₂
            have hacn : a.toNat < c.toNat := Nat.lt_trans h₁n h₂n
            have hac : ¬a = c := fun h => Nat.lt_irrefl _ (h ▸ hacn)
            rw [if_neg hac]
            exact decide_eq_true hacn

theorem charListLt_asymm {x y : List Char} (h : charListLt x y = true) :
    charListLt y x = false := by
  by_contra hc
  have h2 : charListLt y x = true := by
    cases hyx : charListLt y x
    · exact absurd hyx hc
    · rfl
  have h3 := charListLt_trans x y x h h2
  rw [charListLt_irrefl] at h3
  exact absurd h3 (by simp)

theorem charListLt_trichotomy : ∀ x y : List Char,
    charListLt x y = true ∨ x = y ∨ charListLt y x = true := by
  intro x
  induction x with
  | nil =>
    intro y
    cases y with
    | nil => right; left; rfl
    | cons b bs => left; rfl
  | cons a as ih =>
    intro y
    cases y with
    | nil => right; right; rfl
    | cons b bs =>
      by_cases hab : a = b
      · rcases ih bs with h | h | h
        · left
          rw [charListLt, if_pos hab]
          exact h
        · right; left
          rw [hab, h]
        · right; right
          rw [charListLt, if_pos hab.symm]
          exact h
      · rcases Nat.lt_trichotomy a.toNat b.toNat with h | h | h
        · left
          rw [charListLt, if_neg hab]
          exact decide_eq_true h
        · exact absurd (char_toNat_inj h) hab
        · right; right
          rw [charListLt, if_neg (fun hh => hab hh.symm)]
          exact decide_eq_true h

theorem strLt_trans {a b c : String} (h₁ : strLt a b = true) (h₂ : strLt b c = true) :
    strLt a c = true :=
  charListLt_trans _ _ _ h₁ h₂

theorem strLt_asymm {a b : String} (h : strLt a b = true) : strLt b a = false :=
  charListLt_asymm h

theorem strLt_trichotomy (a b : String) :
    strLt a b = true ∨ a = b ∨ strLt b a = true := by
  rcases charListLt_trichotomy a.data b.data with h | h | h
  · exact Or.inl h
  · exact Or.inr (Or.inl (string_data_inj h))
  · exact Or.inr (Or.inr h)

theorem strListLe_total : ∀ x y : List String, strListLe x y = true ∨ strListLe y x = true := by
  intro x
  induction x with
  | nil => intro y; left; rfl
  | cons a as ih =>
    intro y
    cases y with
    | nil => right; rfl
    | cons b bs =>
      by_cases hab : a = b
      · rcases ih bs with h | h
        · left
          rw [strListLe, if_pos hab]
          exact h
        · right
          rw [strListLe, if_pos hab.symm]
          exact h
      · rcases strLt_trichotomy a b with h | h | h
        · left
          rw [strListLe, if_neg hab]
          exact h
        · exact absurd h hab
        · right
          rw [strListLe, if_neg (fun hh => hab hh.symm)]
          exact h

theorem strListLe_antisymm : ∀ x y : List String,
    strListLe x y = true → strListLe y x = true → x = y := by
  intro x
  induction x with
  | nil =>
    intro y h₁ h₂
    cases y with
    | nil => rfl
    | cons b bs => simp [strListLe] at h₂
  | cons a as ih =>
    intro y h₁ h₂
    cases y with
    | nil => simp [strListLe] at h₁
    | cons b bs =>
      rw [strListLe] at h₁ h₂
      by_cases hab : a = b
      · rw [if_pos hab] at h₁
        rw [if_pos hab.symm] at h₂
        rw [hab, ih bs h₁ h₂]
      · rw [if_neg hab] at h₁
        rw [if_neg (fun hh => hab hh.symm)] at h₂
        rw [strLt_asymm h₁] at h₂
        exact absurd h₂ (by simp)

theorem strListLe_trans : ∀ x y z : List String,
    strListLe x y = true → strListLe y z = true → strListLe x z = true := by
  intro x
  induction x with
  | nil => intro y z _ _; rfl
  | cons a as ih =>
    intro y z h₁ h₂
    cases y with
    | nil => simp [strListLe] at h₁
    | cons b bs =>
      cases z with
      | nil => simp [strListLe] at h₂
      | cons c cs =>
        rw [strListLe] at h₁ h₂ ⊢
        by_cases hab : a = b
        · rw [if_pos hab] at h₁
          by_cases hbc : b = c
          · rw [if_pos hbc] at h₂
            rw [if_pos (hab.trans hbc)]
            exact ih bs cs h₁ h₂
          · rw [if_neg hbc] at h₂
            have hac : ¬a = c := fun h => hbc (hab ▸ h)
            rw [if_neg hac, hab]
            exact h₂
        · rw [if_neg hab] at h₁
          by_cases hbc : b = c
          · have hac : ¬a = c := fun h => hab (h.trans hbc.symm)
            rw [if_neg hac, ← hbc]
            exact h₁
          · rw [if_neg hbc] at h₂
            have hlt := strLt_trans h₁ h₂
            have hac : ¬a = c := by
              intro h
              rw [h] at hlt
              have hirr : strLt c c = false := charListLt_irrefl _
              rw [hirr] at hlt
              exact absurd hlt (by simp)
            rw [if_neg hac]
            exact hlt

instance : IsTotal FsEntry pathLE :=
  ⟨fun a b => strListLe_total (partsOf a) (partsOf b)⟩

instance : IsTrans FsEntry pathLE :=
  ⟨fun a b c => strListLe_trans (partsOf a) (partsOf b) (partsOf c)⟩

theorem sortEntries_perm (l : List FsEntry) : List.Perm (sortEntries l) l :=
  List.perm_insertionSort pathLE l

theorem mem_sortEntries {l : List FsEntry} {e : FsEntry} : e ∈ sortEntries l ↔ e ∈ l :=
  (sortEntries_perm l).mem_iff

theorem sortEntries_sorted (l : List FsEntry) : (sortEntries l).Sorted pathLE :=
  List.sorted_insertionSort pathLE l

theorem sorted_perm_eq : ∀ {l₁ l₂ : List FsEntry}, List.Perm l₁ l₂ → l₁.Sorted pathLE →
    l₂.Sorted pathLE → (∀ a ∈ l₁, ∀ b ∈ l₁, pathLE a b → pathLE b a → a = b) →
    l₁ = l₂ := by
  intro l₁
  induction l₁ with
  | nil =>
    intro l₂ hp _ _ _
    exact (hp.symm.eq_nil).symm
  | cons a t ih =>
    intro l₂ hp hs₁ hs₂ hanti
    cases l₂ with
    | nil => exact absurd hp.eq_nil (by simp)
    | cons b t₂ =>
      have hab : a = b := by
        by_cases heq : a = b
        · exact heq
        · have ha2 : a ∈ b :: t₂ := hp.mem_iff.1 (List.mem_cons_self a t)
          have hb1 : b ∈ a :: t := hp.mem_iff.2 (List.mem_cons_self b t₂)
          have hat2 : a ∈ t₂ := by
            rcases List.mem_cons.1 ha2 with h | h
            · exact absurd h heq
            · exact h
          have hbt : b ∈ t := by
            rcases List.mem_cons.1 hb1 with h | h
            · exact absurd h.symm heq
            · exact h
          have h1 : pathLE a b := List.rel_of_sorted_cons hs₁ b hbt
          have h2 : pathLE b a := List.rel_of_sorted_cons hs₂ a hat2
          exact hanti a (List.mem_cons_self a t) b (List.mem_cons_of_mem a hbt) h1 h2
      subst hab
      have hpt : List.Perm t t₂ := hp.cons_inv
      have hrec := ih hpt hs₁.of_cons hs₂.of_cons
        (fun x hx y hy => hanti x (List.mem_cons_of_mem a hx) y (List.mem_cons_of_mem a hy))
      rw [hrec]

theorem sortEntries_eq_of_perm {l₁ l₂ : List FsEntry}
    (hdist : ∀ a ∈ l₁, ∀ b ∈ l₁, partsOf a = partsOf b → a = b)
    (hp : List.Perm l₁ l₂) : sortEntries l₁ = sortEntries l₂ := by
  apply sorted_perm_eq
  · exact (sortEntries_perm l₁).trans (hp.trans (sortEntries_perm l₂).symm)
  · exact sortEntries_sorted l₁
  · exact sortEntries_sorted l₂
  · intro x hx y hy hxy hyx
    exact hdist x (mem_sortEntries.1 hx) y (mem_sortEntries.1 hy)
      (strListLe_antisymm _ _ hxy hyx)

/-! Lemmas about the instrumented scan. -/

theorem dictFind_append_fresh {m : List (String × ClipRecord)} {k : String} {r : ClipRecord}
    (h : dictFind m k = none) : dictFind (m ++ [(k, r)]) k = some r := by
  rw [dictFind, Option.map_eq_none'] at h
  rw [dictFind, List.find?_append, h]
  simp

theorem scanStepT_fst (oracle : FsEntry → TinyTagResult)
    (s : List (String × ClipRecord) × List FsEntry) (e : FsEntry) :
    (scanStepT oracle s e).1 = scanStep oracle s.1 e := by
  rcases hd : dictFind s.1 (keyOf e) with _ | r
  · simp [scanStepT, scanStep, hd]
  · by_cases ht : r.tags = none
    · simp [scanStepT, scanStep, hd, ht]
    · simp [scanStepT, scanStep, hd, ht]

theorem scanBodyT_fst (oracle : FsEntry → TinyTagResult) :
    ∀ (l : List FsEntry) (s : List (String × ClipRecord) × List FsEntry),
      (scanBodyT oracle s l).1 = scanBody oracle s.1 l := by
  intro l
  induction l with
  | nil => intro s; rfl
  | cons e es ih =>
    intro s
    rw [scanBodyT, scanBody]
    by_cases hf : e.isFile = true
    · rw [if_pos hf, if_pos hf, ih, scanStepT_fst]
    · rw [if_neg hf, if_neg hf, ih]

theorem scan_clipsT_fst (oracle : FsEntry → TinyTagResult) (entries : List FsEntry) :
    (scan_clipsT oracle entries).1 = scan_clips oracle entries := by
  rw [scan_clipsT, scan_clips, scanBodyT_fst]

theorem scanStepT_keys {oracle : FsEntry → TinyTagResult}
    {s : List (String × ClipRecord) × List FsEntry} {e : FsEntry} {seen : List FsEntry}
    (hg : GoodState oracle seen s.1) (hk : s.2.map keyOf = dictKeys s.1) :
    (scanStepT oracle s e).2.map keyOf = dictKeys (scanStepT oracle s e).1 := by
  rcases hd : dictFind s.1 (keyOf e) with _ | r
  · simp only [scanStepT, hd]
    have hk2 : List.map keyOf s.2 = List.map Prod.fst s.1 := by simpa [dictKeys] using hk
    simp [dictKeys, hk2]
  · have hmem := dictFind_mem hd
    obtain ⟨_, _, e₀, _, _, _, htags⟩ := hg.2.2 _ hmem
    have htags2 : r.tags = some (parse_audio_tags (oracle e₀)) := htags
    have ht : ¬r.tags = none := by simp [htags2]
    simp only [scanStepT, hd]
    rw [if_neg ht]
    rw [dictKeys_dictSet]
    exact hk

theorem scanBodyT_keys (oracle : FsEntry → TinyTagResult) :
    ∀ (l : List FsEntry) (s : List (String × ClipRecord) × List FsEntry)
      (seen : List FsEntry), GoodState oracle seen s.1 → s.2.map keyOf = dictKeys s.1 →
      (scanBodyT oracle s l).2.map keyOf = dictKeys (scanBodyT oracle s l).1 := by
  intro l
  induction l with
  | nil => intro s seen _ hk; exact hk
  | cons e es ih =>
    intro s seen hg hk
    rw [scanBodyT]
    by_cases hf : e.isFile = true
    · rw [if_pos hf]
      have hg2 := goodState_step oracle e hg
      rw [if_pos hf] at hg2
      have hg3 : GoodState oracle (seen ++ [e]) (scanStepT oracle s e).1 := by
        rw [scanStepT_fst]
        exact hg2
      exact ih _ _ hg3 (scanStepT_keys hg hk)
    · rw [if_neg hf]
      have hg2 := goodState_step oracle e hg
      rw [if_neg hf] at hg2
      exact ih _ _ hg2 hk

/-! Lemmas about the write loop. -/

theorem writeLoop_no_conn (st : StoreOracle) : ∀ clips : List (String × ClipRecord),
    StoreEvent.connect ∉ (writeLoop st clips).1 ∧
    StoreEvent.closeConn ∉ (writeLoop st clips).1 := by
  intro clips
  induction clips with
  | nil => simp [writeLoop]
  | cons p rest ih =>
    obtain ⟨k, r⟩ := p
    cases h1 : st.insertClip (clipRowOf r) with
    | error u => simp [writeLoop, h1]
    | ok u =>
      rcases ht : r.tags with _ | t0
      · simp [writeLoop, h1, ht]
        exact ih
      · rcases ht2 : t0 with _ | t
        · simp [writeLoop, h1, ht, ht2]
          exact ih
        · cases h2 : st.selectId r.key with
          | error u2 => simp [writeLoop, h1, ht, ht2, h2]
          | ok o =>
            rcases h3 : o with _ | id
            · simp [writeLoop, h1, ht, ht2, h2, h3]
              exact ih
            · cases h4 : st.insertTag (tagRowOf id t) with
              | error u3 => simp [writeLoop, h1, ht, ht2, h2, h3, h4]
              | ok u3 =>
                simp [writeLoop, h1, ht, ht2, h2, h3, h4]
                exact ih

theorem writeLoop_insertClip_mem (st : StoreOracle) :
    ∀ (clips : List (String × ClipRecord)) (row : ClipRow),
      StoreEvent.insertClip row ∈ (writeLoop st clips).1 →
      ∃ k r, (k, r) ∈ clips ∧ row = clipRowOf r := by
  intro clips
  induction clips with
  | nil => intro row h; simp [writeLoop] at h
  | cons p rest ih =>
    obtain ⟨k, r⟩ := p
    intro row h
    have hstep : StoreEvent.insertClip row ∈ (writeLoop st rest).1 →
        ∃ k2 r2, (k2, r2) ∈ (k, r) :: rest ∧ row = clipRowOf r2 := by
      intro h2
      obtain ⟨k2, r2, hm, he⟩ := ih row h2
      exact ⟨k2, r2, List.mem_cons_of_mem _ hm, he⟩
    have hhead : row = clipRowOf r →
        ∃ k2 r2, (k2, r2) ∈ (k, r) :: rest ∧ row = clipRowOf r2 :=
      fun he => ⟨k, r, List.mem_cons_self _ _, he⟩
    cases h1 : st.insertClip (clipRowOf r) with
    | error u =>
      simp [writeLoop, h1] at h
      exact hhead h
    | ok u =>
      rcases ht : r.tags with _ | t0
      · simp [writeLoop, h1, ht] at h
        rcases h with h | h
        · exact hhead h
        · exact hstep h
      · rcases t0 with _ | t
        · simp [writeLoop, h1, ht] at h
          rcases h with h | h
          · exact hhead h
          · exact hstep h
        · cases h2 : st.selectId r.key with
          | error u2 =>
            simp [writeLoop, h1, ht, h2] at h
            exact hhead h
          | ok o =>
            rcases o with _ | id
            · simp [writeLoop, h1, ht, h2] at h
              rcases h with h | h
              · exact hhead h
              · exact hstep h
            · cases h4 : st.insertTag (tagRowOf id t) with
              | error u3 =>
                simp [writeLoop, h1, ht, h2, h4] at h
                exact hhead h
              | ok u3 =>
                simp [writeLoop, h1, ht, h2, h4] at h
                rcases h with h | h
                · exact hhead h
                · exact hstep h

theorem toFinset_list_map {α β : Type} [DecidableEq α] [DecidableEq β] (f : α → β)
    (l : List α) : (l.map f).toFinset = l.toFinset.image f := by
  apply Finset.ext
  intro b
  simp [List.mem_toFinset, Finset.mem_image, List.mem_map]

/-! The claims. -/

/-- Claim C1: the spec demands first-success-wins across variants: when
extraction fails on the first file of a key and succeeds on a later
variant, the tags of the later variant should be stored. The code
cannot do this: every record is created with the dictionary key "tags"
already present (line 137), so the re-extraction guard of line 141
never fires. At the concrete input below the m4a variant, first in
scan order, raises, and the mp3 variant carries valid tags, yet the
resulting record keeps tags = None instead of the mp3 tags. -/
theorem claim_C1_first_success_wins_fails :
    scan_clips oracleA [fileMp3, fileM4a] = [("songs/track", recScanned)] ∧
    recScanned.tags = some none ∧
    parse_audio_tags (oracleA fileM4a) = none ∧
    parse_audio_tags (oracleA fileMp3) = some tagsA := by
  exact ⟨by decide, rfl, by decide, by decide⟩

/-- Claim C2 counterexample: with an empty store-connection descriptor
the program calls sys.exit before the scan phase (line 160), so the
clip mapping is not produced, even on a non-empty tree whose scan would
yield a non-empty mapping. This refutes the part of the claim stating
that the scan phase still completes and produces the mapping. -/
theorem claim_C2_counterexample :
    (mainProgram oracleA storeOk [("clips_directory", "clips")] [] [fileMp3]).scanned = none ∧
    scan_clips oracleA [fileMp3] ≠ [] := by
  exact ⟨by decide, by decide⟩

/-- Claim C2 amended: empty store configuration is a defined do-nothing
condition, not an error: create_database_entries called with empty
settings returns at once, opening no connection and writing no rows;
and the whole program with empty database settings performs no store
events. However the program exits before the scan phase, so the clip
mapping is not produced. -/
theorem claim_C2_amended_empty_settings (oracle : FsEntry → TinyTagResult) (st : StoreOracle)
    (clips : List (String × ClipRecord)) (app : List (String × String))
    (entries : List FsEntry) :
    create_database_entries st [] clips = ([], true) ∧
    (mainProgram oracle st app [] entries).events = [] ∧
    (mainProgram oracle st app [] entries).scanned = none := by
  refine ⟨by simp [create_database_entries], ?_, ?_⟩ <;>
    · rcases h : lookupStr app "clips_directory" with _ | d
      · simp [mainProgram, h]
      · by_cases hd : d = "" <;> simp [mainProgram, h, hd]

/-- Claim C4: a per-file extraction failure degrades to absent tags and
never aborts the scan: a falsy TinyTag result or a TinyTagException
makes parse_audio_tags return None; the record created for such a file
carries tags = None for that attempt; and the scan loop proceeds with
the remaining files unconditionally. -/
theorem claim_C4_extraction_failure_is_local (oracle : FsEntry → TinyTagResult)
    (m : List (String × ClipRecord)) (e : FsEntry) (l : List FsEntry)
    (hfail : oracle e = TinyTagResult.falsy ∨ oracle e = TinyTagResult.raises) :
    parse_audio_tags (oracle e) = none ∧
    (e.isFile = true → dictFind m (keyOf e) = none →
      dictFind (scanStep oracle m e) (keyOf e) = some (recordFor oracle e) ∧
      (recordFor oracle e).tags = some none) ∧
    scanBody oracle m (e :: l) =
      scanBody oracle (if e.isFile then scanStep oracle m e else m) l := by
  have hnone : parse_audio_tags (oracle e) = none := by
    rcases hfail with h | h <;> rw [h] <;> rfl
  refine ⟨hnone, fun _ hd => ⟨?_, ?_⟩, rfl⟩
  · rw [scanStep_none hd]
    exact dictFind_append_fresh hd
  · simp [recordFor, hnone]

/-- Claim C4 witness: with the always-raising oracle, scanning the mp3
fixture file from the empty state yields a record with absent tags and
the loop equation holds. -/
theorem claim_C4_witness :
    parse_audio_tags (oracleFail fileMp3) = none ∧
    (fileMp3.isFile = true → dictFind [] (keyOf fileMp3) = none →
      dictFind (scanStep oracleFail [] fileMp3) (keyOf fileMp3) =
        some (recordFor oracleFail fileMp3) ∧
      (recordFor oracleFail fileMp3).tags = some none) ∧
    scanBody oracleFail [] [fileMp3] =
      scanBody oracleFail (if fileMp3.isFile then scanStep oracleFail [] fileMp3 else []) [] :=
  claim_C4_extraction_failure_is_local oracleFail [] fileMp3 [] (Or.inr rfl)

/-- Claim C6: the scanner is deterministic: the enumeration is sorted
before processing, so any two enumeration orders of the same tree, a
permutation with pairwise distinct paths, give identical mappings, with
a tag oracle that is a pure function of the file. -/
theorem claim_C6_determinism (oracle : FsEntry → TinyTagResult) (l₁ l₂ : List FsEntry)
    (hdist : ∀ a ∈ l₁, ∀ b ∈ l₁, partsOf a = partsOf b → a = b)
    (hp : List.Perm l₁ l₂) :
    scan_clips oracle l₁ = scan_clips oracle l₂ := by
  rw [scan_clips, scan_clips, sortEntries_eq_of_perm hdist hp]

/-- Claim C6 witness: the two enumeration orders of the two-variant
fixture tree give the same mapping. -/
theorem claim_C6_witness :
    scan_clips oracleA [fileMp3, fileM4a] = scan_clips oracleA [fileM4a, fileMp3] :=
  claim_C6_determinism oracleA [fileMp3, fileM4a] [fileM4a, fileMp3] (by decide)
    (List.Perm.swap fileM4a fileMp3 [])

/-- Claim C7: every clip row the write loop sends to the store belongs
to a clip of the input mapping and its three boolean flags are exactly
the membership tests of .mp3, .m4a and .m4r in the suffixes of that
clip; unrecognised extensions set no flag. -/
theorem claim_C7_format_flags (st : StoreOracle) (clips : List (String × ClipRecord))
    (row : ClipRow) (hmem : StoreEvent.insertClip row ∈ (writeLoop st clips).1) :
    ∃ k r, (k, r) ∈ clips ∧ row = clipRowOf r ∧
      (row.mp3 = true ↔ ".mp3" ∈ r.suffixes) ∧
      (row.m4a = true ↔ ".m4a" ∈ r.suffixes) ∧
      (row.m4r = true ↔ ".m4r" ∈ r.suffixes) := by
  obtain ⟨k, r, hkr, he⟩ := writeLoop_insertClip_mem st clips row hmem
  refine ⟨k, r, hkr, he, ?_, ?_, ?_⟩ <;>
    · rw [he]
      simp [clipRowOf]

/-- Claim C7 witness: the fixture clip with variants .mp3 and .wav is
written with flags mp3 = true, m4a = false, m4r = false. -/
theorem claim_C7_witness :
    (∃ k r, (k, r) ∈ [("songs/track", recMp3Wav)] ∧ clipRowOf recMp3Wav = clipRowOf r ∧
      ((clipRowOf recMp3Wav).mp3 = true ↔ ".mp3" ∈ r.suffixes) ∧
      ((clipRowOf recMp3Wav).m4a = true ↔ ".m4a" ∈ r.suffixes) ∧
      ((clipRowOf recMp3Wav).m4r = true ↔ ".m4r" ∈ r.suffixes)) ∧
    (clipRowOf recMp3Wav).mp3 = true ∧
    (clipRowOf recMp3Wav).m4a = false ∧
    (clipRowOf recMp3Wav).m4r = false :=
  ⟨claim_C7_format_flags storeOk [("songs/track", recMp3Wav)] (clipRowOf recMp3Wav)
      (by decide),
    by decide, by decide, by decide⟩

/-- Claim C8 counterexample: when the first clip INSERT raises, the
exception propagates and line 115 is never reached, so the connection
is not closed: the trace of the concrete run below contains no close
event. This refutes the part of the claim stating the connection is
closed when a per-clip insert fails; the spec itself flags this gap in
its sections 5 and 9. -/
theorem claim_C8_counterexample :
    StoreEvent.closeConn ∉
      (create_database_entries storeInsertFails [("host", "h")]
        [("songs/track", recMp3Wav)]).1 ∧
    (create_database_entries storeInsertFails [("host", "h")]
      [("songs/track", recMp3Wav)]).2 = false := by
  exact ⟨by decide, by decide⟩

/-- Claim C8 amended: with non-empty settings the connection is opened
exactly once before the loop, the loop itself never touches the
connection, and the connection is closed, once, at the very end only
when the loop completed without a raised statement; when a statement
raises, the trace ends without any close event. -/
theorem claim_C8_amended_close_on_success_only (st : StoreOracle)
    (settings : List (String × String)) (clips : List (String × ClipRecord))
    (hs : settings ≠ []) :
    (StoreEvent.connect ∉ (writeLoop st clips).1 ∧
      StoreEvent.closeConn ∉ (writeLoop st clips).1) ∧
    ((writeLoop st clips).2 = true →
      create_database_entries st settings clips =
        (StoreEvent.connect :: (writeLoop st clips).1 ++ [StoreEvent.closeConn], true)) ∧
    ((writeLoop st clips).2 = false →
      create_database_entries st settings clips =
        (StoreEvent.connect :: (writeLoop st clips).1, false) ∧
      StoreEvent.closeConn ∉ (create_database_entries st settings clips).1) := by
  obtain ⟨hnc, hncl⟩ := writeLoop_no_conn st clips
  refine ⟨⟨hnc, hncl⟩, ?_, ?_⟩
  · intro hok
    simp [create_database_entries, if_neg hs, hok]
  · intro hfail
    have heq : create_database_entries st settings clips =
        (StoreEvent.connect :: (writeLoop st clips).1, false) := by
      simp [create_database_entries, if_neg hs, hfail]
    refine ⟨heq, ?_⟩
    rw [heq]
    simp [hncl]

/-- Claim C8 amended witness: instantiation at a store whose clip
INSERT always raises, with one clip and non-empty settings. -/
theorem claim_C8_witness :
    (StoreEvent.connect ∉ (writeLoop storeInsertFails [("songs/track", recMp3Wav)]).1 ∧
      StoreEvent.closeConn ∉ (writeLoop storeInsertFails [("songs/track", recMp3Wav)]).1) ∧
    ((writeLoop storeInsertFails [("songs/track", recMp3Wav)]).2 = true →
      create_database_entries storeInsertFails [("host", "h")] [("songs/track", recMp3Wav)] =
        (StoreEvent.connect :: (writeLoop storeInsertFails [("songs/track", recMp3Wav)]).1 ++
          [StoreEvent.closeConn], true)) ∧
    ((writeLoop storeInsertFails [("songs/track", recMp3Wav)]).2 = false →
      create_database_entries storeInsertFails [("host", "h")] [("songs/track", recMp3Wav)] =
        (StoreEvent.connect :: (writeLoop storeInsertFails [("songs/track", recMp3Wav)]).1,
          false) ∧
      StoreEvent.closeConn ∉
        (create_database_entries storeInsertFails [("host", "h")]
          [("songs/track", recMp3Wav)]).1) :=
  claim_C8_amended_close_on_success_only storeInsertFails [("host", "h")]
    [("songs/track", recMp3Wav)] (by decide)

/-- Claim C10: when a clip has tags but the identity re-lookup fetches
no row, the tag insert is skipped silently: the events of that clip are
exactly the clip INSERT and the SELECT, no tag insert and no notice is
emitted for it, no failure is recorded, and the loop continues with the
remaining clips. -/
theorem claim_C10_select_miss_skips_silently (st : StoreOracle) (k : String)
    (r : ClipRecord) (t : TagMetadata) (rest : List (String × ClipRecord))
    (ht : r.tags = some (some t))
    (h1 : st.insertClip (clipRowOf r) = Except.ok ())
    (h2 : st.selectId r.key = Except.ok none) :
    writeLoop st ((k, r) :: rest) =
      (StoreEvent.insertClip (clipRowOf r) :: StoreEvent.selectId r.key ::
        (writeLoop st rest).1, (writeLoop st rest).2) ∧
    (∀ row, StoreEvent.insertTag row ∈ (writeLoop st ((k, r) :: rest)).1 →
      StoreEvent.insertTag row ∈ (writeLoop st rest).1) ∧
    (StoreEvent.notice r.key ∈ (writeLoop st ((k, r) :: rest)).1 →
      StoreEvent.notice r.key ∈ (writeLoop st rest).1) := by
  have heq : writeLoop st ((k, r) :: rest) =
      (StoreEvent.insertClip (clipRowOf r) :: StoreEvent.selectId r.key ::
        (writeLoop st rest).1, (writeLoop st rest).2) := by
    simp [writeLoop, h1, ht, h2]
  refine ⟨heq, ?_, ?_⟩
  · intro row hrow
    rw [heq] at hrow
    simpa using hrow
  · intro hrow
    rw [heq] at hrow
    simpa using hrow

/-- Claim C10 witness: instantiation at the no-row store with the
fixture clip carrying tags and an empty remainder. -/
theorem claim_C10_witness :
    writeLoop storeNoRow [("songs/track", recMp3Wav)] =
      (StoreEvent.insertClip (clipRowOf recMp3Wav) ::
        StoreEvent.selectId recMp3Wav.key :: (writeLoop storeNoRow []).1,
        (writeLoop storeNoRow []).2) ∧
    (∀ row, StoreEvent.insertTag row ∈ (writeLoop storeNoRow [("songs/track", recMp3Wav)]).1 →
      StoreEvent.insertTag row ∈ (writeLoop storeNoRow []).1) ∧
    (StoreEvent.notice recMp3Wav.key ∈
        (writeLoop storeNoRow [("songs/track", recMp3Wav)]).1 →
      StoreEvent.notice recMp3Wav.key ∈ (writeLoop storeNoRow []).1) :=
  claim_C10_select_miss_skips_silently storeNoRow "songs/track" recMp3Wav tagsA [] rfl rfl rfl

/-- Claim C3: the keys of the produced mapping are in bijection with
the distinct (parent, stem) pairs of the regular files under the root:
a string is a key exactly when some regular file bears it; two files
share a key exactly when they share directory and stem; and the number
of distinct keys equals the number of distinct (parent, stem) pairs. -/
theorem claim_C3_key_bijection (oracle : FsEntry → TinyTagResult) (entries : List FsEntry)
    (hwf : ∀ e ∈ entries, wfEntry e) :
    (∀ k, k ∈ dictKeys (scan_clips oracle entries) ↔
      ∃ e ∈ entries, e.isFile = true ∧ keyOf e = k) ∧
    (∀ e₁ ∈ entries, ∀ e₂ ∈ entries, (keyOf e₁ = keyOf e₂ ↔ pairOf e₁ = pairOf e₂)) ∧
    (dictKeys (scan_clips oracle entries)).toFinset.card =
      ((entries.filter fun e => e.isFile).map pairOf).toFinset.card := by
  obtain ⟨hnd, hcomp, hrec⟩ := goodState_scan_clips oracle entries
  have hiff : ∀ k, k ∈ dictKeys (scan_clips oracle entries) ↔
      ∃ e ∈ entries, e.isFile = true ∧ keyOf e = k := by
    intro k
    constructor
    · intro hk
      simp only [dictKeys, List.mem_map] at hk
      obtain ⟨p, hp, hpk⟩ := hk
      obtain ⟨_, _, e₀, hfind, _, _, _⟩ := hrec p hp
      have he₀ := List.mem_of_find?_eq_some hfind
      have hpred := List.find?_some hfind
      obtain ⟨hfile, hkey⟩ := isFileWithKey_true_iff.1 hpred
      exact ⟨e₀, mem_sortEntries.1 he₀, hfile, hpk ▸ hkey⟩
    · intro hk
      obtain ⟨e, he, hfile, hkey⟩ := hk
      exact hcomp k ⟨e, mem_sortEntries.2 he, isFileWithKey_true_iff.2 ⟨hfile, hkey⟩⟩
  refine ⟨hiff, fun e₁ h₁ e₂ h₂ => keyOf_eq_iff (hwf e₁ h₁) (hwf e₂ h₂), ?_⟩
  have hset : (dictKeys (scan_clips oracle entries)).toFinset =
      ((entries.filter fun e => e.isFile).map keyOf).toFinset := by
    apply Finset.ext
    intro k
    rw [List.mem_toFinset, List.mem_toFinset, hiff k, List.mem_map]
    constructor
    · intro hk
      obtain ⟨e, he, hfile, hkey⟩ := hk
      exact ⟨e, List.mem_filter.2 ⟨he, hfile⟩, hkey⟩
    · intro hk
      obtain ⟨e, he, hkey⟩ := hk
      have hm := List.mem_filter.1 he
      exact ⟨e, hm.1, hm.2, hkey⟩
  rw [hset, toFinset_list_map, toFinset_list_map]
  have himg : Finset.image keyOf (entries.filter fun e => e.isFile).toFinset =
      Finset.image keyPair
        (Finset.image pairOf (entries.filter fun e => e.isFile).toFinset) := by
    rw [Finset.image_image]
    rfl
  rw [himg]
  apply Finset.card_image_of_injOn
  intro p₁ hp₁ p₂ hp₂ heq
  simp only [Finset.coe_image, Set.mem_image, Finset.mem_coe, List.mem_toFinset] at hp₁ hp₂
  obtain ⟨a, ha, hap⟩ := hp₁
  obtain ⟨b, hb, hbp⟩ := hp₂
  have hawf := hwf a (List.mem_filter.1 ha).1
  have hbwf := hwf b (List.mem_filter.1 hb).1
  rw [← hap, ← hbp] at heq ⊢
  have hkeys : keyOf a = keyOf b := heq
  exact (keyOf_eq_iff hawf hbwf).1 hkeys

/-- Claim C3 witness: instantiation at the two-variant fixture tree. -/
theorem claim_C3_witness :
    ("songs/track" ∈ dictKeys (scan_clips oracleA [fileMp3, fileM4a]) ↔
      ∃ e ∈ [fileMp3, fileM4a], e.isFile = true ∧ keyOf e = "songs/track") ∧
    (keyOf fileMp3 = keyOf fileM4a ↔ pairOf fileMp3 = pairOf fileM4a) ∧
    (dictKeys (scan_clips oracleA [fileMp3, fileM4a])).toFinset.card =
      (([fileMp3, fileM4a].filter fun e => e.isFile).map pairOf).toFinset.card := by
  obtain ⟨h1, h2, h3⟩ := claim_C3_key_bijection oracleA [fileMp3, fileM4a] (by decide)
  exact ⟨h1 "songs/track", h2 fileMp3 (by decide) fileM4a (by decide), h3⟩

/-- Claim C5: for an input of pairwise distinct file paths the suffix
list of every produced record is non-empty and has pairwise distinct
elements, even though the code appends without a membership test:
within one key, distinct paths force distinct suffixes. -/
theorem claim_C5_suffixes_nodup (oracle : FsEntry → TinyTagResult) (entries : List FsEntry)
    (hwf : ∀ e ∈ entries, wfEntry e)
    (hdist : entries.Pairwise fun a b => ¬(a.parents = b.parents ∧ a.name = b.name)) :
    ∀ p ∈ scan_clips oracle entries, p.2.suffixes ≠ [] ∧ p.2.suffixes.Nodup := by
  obtain ⟨hnd, hcomp, hrec⟩ := goodState_scan_clips oracle entries
  intro p hp
  obtain ⟨hkey, hsuf, e₀, hfind, _, _, _⟩ := hrec p hp
  have hsuf2 : p.2.suffixes =
      ((sortEntries entries).filter (isFileWithKey p.1)).map fun e => suffixOf e.name := hsuf
  constructor
  · rw [hsuf2]
    have he₀mem : e₀ ∈ (sortEntries entries).filter (isFileWithKey p.1) :=
      List.mem_filter.2 ⟨List.mem_of_find?_eq_some hfind, List.find?_some hfind⟩
    intro hcon
    rw [List.map_eq_nil_iff] at hcon
    rw [hcon] at he₀mem
    exact List.not_mem_nil e₀ he₀mem
  · rw [hsuf2]
    have hpw : (sortEntries entries).Pairwise
        fun a b => ¬(a.parents = b.parents ∧ a.name = b.name) :=
      ((sortEntries_perm entries).pairwise_iff
        fun h hcon => h ⟨hcon.1.symm, hcon.2.symm⟩).2 hdist
    have hpwf := hpw.filter (isFileWithKey p.1)
    have hne : ((sortEntries entries).filter (isFileWithKey p.1)).Pairwise
        fun a b => suffixOf a.name ≠ suffixOf b.name := by
      refine hpwf.imp_of_mem ?_
      intro a b ha hb hR hfeq
      have hma := List.mem_filter.1 ha
      have hmb := List.mem_filter.1 hb
      obtain ⟨hafile, hakey⟩ := isFileWithKey_true_iff.1 hma.2
      obtain ⟨hbfile, hbkey⟩ := isFileWithKey_true_iff.1 hmb.2
      have hawf := hwf a (mem_sortEntries.1 hma.1)
      have hbwf := hwf b (mem_sortEntries.1 hmb.1)
      have hkeyeq : keyOf a = keyOf b := by rw [hakey, hbkey]
      have hpair := (keyOf_eq_iff hawf hbwf).1 hkeyeq
      simp only [pairOf, Prod.mk.injEq] at hpair
      have hname : a.name = b.name := stem_suffix_inj hpair.2 hfeq
      exact hR ⟨hpair.1, hname⟩
    exact List.pairwise_map.2 hne

/-- Claim C5 witness: the suffix list of the fixture clip built from
the two variant files is non-empty and duplicate-free. -/
theorem claim_C5_witness :
    (("songs/track", recScanned) : String × ClipRecord).2.suffixes ≠ [] ∧
    (("songs/track", recScanned) : String × ClipRecord).2.suffixes.Nodup :=
  claim_C5_suffixes_nodup oracleA [fileMp3, fileM4a] (by decide) (by decide)
    ("songs/track", recScanned) (by decide)

/-- Claim C9: the tags entry of every record is assigned exactly once,
at record creation, from the first regular file in sorted order bearing
the key: the dictionary key tags is always present, so each record
keeps the extraction result of its find?-first file, and the list of
extraction attempts of the instrumented scan carries each clip key at
most once, which makes the re-extraction branch of line 142 dead. -/
theorem claim_C9_single_extraction_attempt (oracle : FsEntry → TinyTagResult)
    (entries : List FsEntry) :
    (∀ p ∈ scan_clips oracle entries, p.2.tags ≠ none ∧
      ∃ e, (sortEntries entries).find? (isFileWithKey p.1) = some e ∧
        p.2.tags = some (parse_audio_tags (oracle e))) ∧
    (scan_clipsT oracle entries).1 = scan_clips oracle entries ∧
    (scan_clipsT oracle entries).2.map keyOf = dictKeys (scan_clips oracle entries) ∧
    ((scan_clipsT oracle entries).2.map keyOf).Nodup := by
  obtain ⟨hnd, hcomp, hrec⟩ := goodState_scan_clips oracle entries
  have hkeys : (scan_clipsT oracle entries).2.map keyOf =
      dictKeys ((scan_clipsT oracle entries).1) :=
    scanBodyT_keys oracle (sortEntries entries) ([], []) [] (goodState_nil oracle) rfl
  rw [scan_clipsT_fst] at hkeys
  refine ⟨?_, scan_clipsT_fst oracle entries, hkeys, ?_⟩
  · intro p hp
    obtain ⟨_, _, e₀, hfind, _, _, htags⟩ := hrec p hp
    have htags2 : p.2.tags = some (parse_audio_tags (oracle e₀)) := htags
    refine ⟨by simp [htags2], e₀, hfind, htags2⟩
  · rw [hkeys]
    exact hnd

/-- Claim C9 witness: instantiation at the two-variant fixture tree;
the single record keeps the extraction result of the first sorted file
and the attempt list carries the key once. -/
theorem claim_C9_witness :
    ((("songs/track", recScanned) : String × ClipRecord).2.tags ≠ none ∧
      ∃ e, (sortEntries [fileMp3, fileM4a]).find? (isFileWithKey "songs/track") = some e ∧
        (("songs/track", recScanned) : String × ClipRecord).2.tags =
          some (parse_audio_tags (oracleA e))) ∧
    ((scan_clipsT oracleA [fileMp3, fileM4a]).2.map keyOf).Nodup := by
  obtain ⟨h1, _, _, h4⟩ := claim_C9_single_extraction_attempt oracleA [fileMp3, fileM4a]
  exact ⟨h1 ("songs/track", recScanned) (by decide), h4⟩

end ParseImport
